import Mathlib

/-!
# Spending Snapshot (`src/app/page.js`): the expense aggregation core

A shallow embedding of the pure computations of the `Home` component:
`formatMonthKey`, `months`, `filteredExpenses`, `totals`, the top-category
card, `monthlyTrend`, the trend percentage and `handleSubmit`.

Modelling conventions.

* Numbers are rationals (`ℚ`); `NaN` and the infinities have no counterpart,
  so `Number.parseFloat` yields an `Option ℚ` (`none` is `NaN`).
* The sums of `totals` and `monthlyTrend` and the quotient and product of the
  trend percentage take a parameter `rounding : ℚ → ℚ`, applied to the exact
  result of every `+`, `/` and `*`: the identity `id` is exact arithmetic,
  `binary64` is the arithmetic of JavaScript numbers within their finite
  range.  The rounding to cents of `handleSubmit` is in exact arithmetic.
* JavaScript arrays are lists, in index order.
* A `Set`, a `Map` and a plain object used as a dictionary are lists in
  insertion order.  For a plain object this is the enumeration order of
  `Object.entries` as long as no key is an array index or a name inherited
  from `Object.prototype`; the seven fixed categories are such keys.
* Strings are compared with the order of `String`; every result below only
  uses that this order is linear.
* `Array.prototype.sort` is an insertion into the sorted part of the array.
  Where an element goes among those it neither precedes nor follows is left
  to the engine by ECMAScript when the comparator never returns 0, so the
  sort takes the test of the engine as a parameter `engine : Engine`.
-/

namespace ExpenseTracker

/-! ## Data model -/

/-- One expense record, with the six properties of the object literals of
`seedExpenses` and `handleSubmit`. -/
structure Expense where
  id : String
  description : String
  category : String
  amount : ℚ
  date : String
  note : String
  deriving DecidableEq

/-- The form state `newExpense`: every field is the raw text of an input. -/
structure NewExpense where
  description : String
  category : String
  amount : String
  date : String
  note : String
  deriving DecidableEq

/-- The fixed category list, `const categories`. -/
def categories : List String :=
  ["Housing", "Food", "Transport", "Health", "Utilities", "Leisure", "Other"]

/-- The initial store, `const seedExpenses`; `uuid i` stands for the value of
the `i`-th call of `crypto.randomUUID()`. -/
def seedExpenses (uuid : Nat → String) : List Expense :=
  [ { id := uuid 0, description := "Groceries", category := "Food",
      amount := 6845 / 100, date := "2024-04-06", note := "Weekly supermarket run" },
    { id := uuid 1, description := "Gym Membership", category := "Health",
      amount := 3999 / 100, date := "2024-04-01", note := "" },
    { id := uuid 2, description := "Metro card", category := "Transport",
      amount := 255 / 10, date := "2024-04-08", note := "Top-up" },
    { id := uuid 3, description := "Streaming service", category := "Leisure",
      amount := 1299 / 100, date := "2024-03-29", note := "" },
    { id := uuid 4, description := "Electricity", category := "Utilities",
      amount := 912 / 10, date := "2024-03-18", note := "March bill" } ]

/-! ## Library operations used by the component -/

/-- The pieces of `value.split(sep)` for a one-character separator: there is
always at least one piece. -/
def splitChars (sep : Char) : List Char → List (List Char)
  | [] => [[]]
  | c :: cs =>
    if c = sep then [] :: splitChars sep cs
    else
      match splitChars sep cs with
      | [] => [[c]]
      | piece :: pieces => (c :: piece) :: pieces

/-- The test by which the sort of an engine decides whether an element `x`
moves in front of an element `y` that is already placed: `ltZero` moves it
when `comparefn(x, y) < 0` (as TimSort of V8 does), `leZero` leaves it behind
`y` only when `comparefn(y, x) <= 0`.  The comparator of the top category
card returns 0 on equal subtotals, and the two tests then place every element
alike; the comparator of `months`, `filteredExpenses` and `monthlyTrend`
never returns 0, and the two tests then differ on equal keys. -/
inductive Engine where
  | ltZero
  | leZero
  deriving DecidableEq

/-- Whether the sort of `engine` moves `x` in front of the placed element `y`. -/
def goesBefore {α : Type} (engine : Engine) (comparefn : α → α → ℚ) (x y : α) : Bool :=
  match engine with
  | Engine.ltZero => decide (comparefn x y < 0)
  | Engine.leZero => !decide (comparefn y x ≤ 0)

/-- The insertion step of the sort: `x` goes in front of the first placed
element that the test of the engine moves it in front of. -/
def sortedInsert {α : Type} (engine : Engine) (comparefn : α → α → ℚ) (x : α) :
    List α → List α
  | [] => [x]
  | y :: ys =>
    if goesBefore engine comparefn x y then x :: y :: ys
    else y :: sortedInsert engine comparefn x ys

/-- The array after `.sort(comparefn)`: the elements are taken from left to
right and each one is inserted into the sorted part built so far. -/
def arraySort {α : Type} (engine : Engine) (comparefn : α → α → ℚ) (l : List α) :
    List α :=
  l.foldl (fun sorted x => sortedInsert engine comparefn x sorted) []

/-- The step `set.add(x)`: a value already present is not added again. -/
def setAdd {α : Type} [DecidableEq α] (s : List α) (x : α) : List α :=
  if x ∈ s then s else s ++ [x]

/-- The elements of `new Set(values)`, in insertion order. -/
def newSet {α : Type} [DecidableEq α] (values : List α) : List α :=
  values.foldl setAdd []

/-- The read `dict[key]` or `map.get(key)`; `none` is `undefined`. -/
def dictGet (dict : List (String × ℚ)) (key : String) : Option ℚ :=
  match dict with
  | [] => none
  | (k, v) :: rest => if k = key then some v else dictGet rest key

/-- The write `dict[key] = value` or `map.set(key, value)`: a present key
keeps its position, a new key goes to the end. -/
def dictSet (dict : List (String × ℚ)) (key : String) (value : ℚ) :
    List (String × ℚ) :=
  match dict with
  | [] => [(key, value)]
  | (k, v) :: rest =>
    if k = key then (k, value) :: rest else (k, v) :: dictSet rest key value

/-- The expression `x || 0` for `x` a number or `undefined`. -/
def orZero : Option ℚ → ℚ
  | none => 0
  | some v => if v = 0 then 0 else v

/-- The integer `Math.round(x)`: the nearest integer, a half rounded up. -/
def mathRound (x : ℚ) : ℤ := ⌊x + 1 / 2⌋

/-- The white space and line terminators removed by `String.prototype.trim`. -/
def isWhiteSpace (c : Char) : Bool :=
  c.toNat ∈ [0x09, 0x0A, 0x0B, 0x0C, 0x0D, 0x20, 0xA0, 0x1680, 0x2028, 0x2029,
    0x202F, 0x205F, 0x3000, 0xFEFF] || (0x2000 ≤ c.toNat && c.toNat ≤ 0x200A)

/-- The method `text.trim()`. -/
def trim (text : String) : String :=
  String.mk ((text.data.dropWhile isWhiteSpace).reverse.dropWhile isWhiteSpace).reverse

/-! ## The component -/

/-- The function `formatMonthKey`: the first two pieces of `value.split("-")`
joined by a dash; a missing second piece prints as `undefined`. -/
def formatMonthKey (value : String) : String :=
  match splitChars '-' value.data with
  | year :: month :: _ => String.mk (year ++ '-' :: month)
  | [year] => String.mk (year ++ "-undefined".data)
  | [] => "undefined-undefined"

/-- The comparator `(a, b) => (a > b ? -1 : 1)` on the keys `key a`, `key b`. -/
def descending {α κ : Type} [LinearOrder κ] (key : α → κ) (a b : α) : ℚ :=
  if key a > key b then -1 else 1

/-- The memo `months`. -/
def months (engine : Engine) (expenses : List Expense) : List String :=
  arraySort engine (descending id)
    (newSet (expenses.map fun expense => formatMonthKey expense.date))

/-- The memo `filteredExpenses` with the array `expenses` threaded through:
the first component is `expenses` after the call, the second the result.
`slice()` and `filter` allocate the array that `sort` then reorders. -/
def filteredExpensesRun (engine : Engine) (expenses : List Expense)
    (selectedMonth : String) : List Expense × List Expense :=
  if selectedMonth = "all" then
    let copy := expenses
    (expenses, arraySort engine (descending Expense.date) copy)
  else
    let kept := expenses.filter
      fun expense => formatMonthKey expense.date = selectedMonth
    (expenses, arraySort engine (descending Expense.date) kept)

/-- The value of the memo `filteredExpenses`. -/
def filteredExpenses (engine : Engine) (expenses : List Expense)
    (selectedMonth : String) : List Expense :=
  (filteredExpensesRun engine expenses selectedMonth).2

/-- The object built by the memo `totals`. -/
structure Totals where
  total : ℚ
  byCategory : List (String × ℚ)
  average : ℚ
  count : Nat
  deriving DecidableEq

/-- One turn of the loop of `totals`, on the pair of `base` and `daySet`;
`rounding` is applied to the result of each `+`. -/
def totalsStep (rounding : ℚ → ℚ) (state : Totals × List String) (expense : Expense) :
    Totals × List String :=
  ({ state.1 with
      total := rounding (state.1.total + expense.amount)
      byCategory := dictSet state.1.byCategory expense.category
        (rounding
          (orZero (dictGet state.1.byCategory expense.category) + expense.amount)) },
    setAdd state.2 expense.date)

/-- The state of `base` and `daySet` when the loop of `totals` has ended. -/
def totalsLoop (rounding : ℚ → ℚ) (filteredExpenses : List Expense) :
    Totals × List String :=
  filteredExpenses.foldl (totalsStep rounding)
    ({ total := 0, byCategory := [], average := 0, count := filteredExpenses.length }, [])

/-- The memo `totals`, as a function of the memo `filteredExpenses`;
`rounding` is applied to the result of each `+` and of the `/`. -/
def totals (rounding : ℚ → ℚ) (filteredExpenses : List Expense) : Totals :=
  let base : Totals :=
    { total := 0, byCategory := [], average := 0, count := filteredExpenses.length }
  if filteredExpenses.length = 0 then base
  else
    let state := totalsLoop rounding filteredExpenses
    { state.1 with average := rounding (state.1.total / (state.2.length : ℚ)) }

/-- The top category card: `none` is the dash shown when `byCategory` has no
key, otherwise the first entry of the entries sorted by `b[1] - a[1]`.  The
comparator is used through its sign only, and the difference of two finite
JavaScript numbers has the sign of their exact difference. -/
def topCategory (engine : Engine) (t : Totals) : Option (String × ℚ) :=
  if t.byCategory.length = 0 then none
  else (arraySort engine (fun a b => b.2 - a.2) t.byCategory).head?

/-- One turn of the loop of `monthlyTrend`; `rounding` is applied to the
result of the `+`. -/
def trendStep (rounding : ℚ → ℚ) (map : List (String × ℚ)) (expense : Expense) :
    List (String × ℚ) :=
  dictSet map (formatMonthKey expense.date)
    (rounding (orZero (dictGet map (formatMonthKey expense.date)) + expense.amount))

/-- The memo `monthlyTrend`. -/
def monthlyTrend (engine : Engine) (rounding : ℚ → ℚ) (expenses : List Expense) :
    List (String × ℚ) :=
  (arraySort engine (descending Prod.fst) (expenses.foldl (trendStep rounding) [])).take 4

/-- The percentages computed while rendering the trend section, one for each
entry of `monthlyTrend`; the reference amount is `monthlyTrend[0][1]`, and
`rounding` is applied to the result of the `/` and of the `*`. -/
def trendPercentages (rounding : ℚ → ℚ) (monthlyTrend : List (String × ℚ)) : List ℤ :=
  match monthlyTrend with
  | [] => []
  | first :: _ =>
    monthlyTrend.map fun entry =>
      if first.2 = 0 then 0
      else mathRound (rounding (rounding (entry.2 / first.2) * 100))

/-- The handler `handleSubmit` on the pair of `expenses` and `newExpense`.
`parseFloat` is `Number.parseFloat` and `uuid` the value of
`crypto.randomUUID()`. -/
def handleSubmit (parseFloat : String → Option ℚ) (uuid : String)
    (state : List Expense × NewExpense) : List Expense × NewExpense :=
  let newExpense := state.2
  match parseFloat newExpense.amount with
  | none => state
  | some amount =>
    if trim newExpense.description = "" ∨ amount ≤ 0 then state
    else
      let expense : Expense :=
        { id := uuid
          description := trim newExpense.description
          category := newExpense.category
          amount := (mathRound (amount * 100) : ℚ) / 100
          date := newExpense.date
          note := trim newExpense.note }
      (expense :: state.1,
        { newExpense with description := "", amount := "", note := "" })

/-! ## Reference quantities -/

/-- The sum of `amount` over the records `e` of `l` with `key e = k`. -/
def amountWhere (key : Expense → String) (l : List Expense) (k : String) : ℚ :=
  ((l.filter fun e => key e = k).map Expense.amount).sum

/-- The value that the loop body `s = (s || 0) + e.amount` leaves in `s`
when it has run, from `s = 0`, for the records `e` of `l` with `key e = k`
in the order of `l`. -/
def subtotalWhere (rounding : ℚ → ℚ) (key : Expense → String) (l : List Expense)
    (k : String) : ℚ :=
  (l.filter fun e => key e = k).foldl (fun s e => rounding (s + e.amount)) 0

/-- The dictionary after the loop body `dict[key e] = (dict[key e] || 0) +
e.amount` has run for every record of `l`, starting from `dict`. -/
def accumulate (rounding : ℚ → ℚ) (key : Expense → String) (dict : List (String × ℚ))
    (l : List Expense) : List (String × ℚ) :=
  l.foldl
    (fun m e => dictSet m (key e) (rounding (orZero (dictGet m (key e)) + e.amount))) dict

/-! ## The arithmetic of JavaScript numbers -/

/-- The integer nearest to `x`, the even one of the two when `x` lies half
way between them. -/
def roundHalfEven (x : ℚ) : ℤ :=
  if x - ⌊x⌋ < 1 / 2 then ⌊x⌋
  else if 1 / 2 < x - ⌊x⌋ then ⌊x⌋ + 1
  else if ⌊x⌋ % 2 = 0 then ⌊x⌋ else ⌊x⌋ + 1

/-- The exponent of the last place of the binary64 values around `x`: 53
significant bits, and the spacing `2 ^ (-1074)` of the subnormal range at
the bottom. -/
def binary64Exponent (x : ℚ) : ℤ := max (Int.log 2 |x| - 52) (-1074)

/-- The binary64 value nearest to `x`, ties to even: the result of an
arithmetic operation of JavaScript whose exact result is `x`, as long as it
stays within the finite range. -/
def binary64 (x : ℚ) : ℚ :=
  (roundHalfEven (x / 2 ^ binary64Exponent x) : ℚ) * 2 ^ binary64Exponent x

/-! ## Sample data -/

/-- A record of 10 on 2024-04-06. -/
def lunch : Expense :=
  { id := "e-lunch", description := "Lunch", category := "Food", amount := 10,
    date := "2024-04-06", note := "" }

/-- A record of 20 on the same day as `lunch`, in another category. -/
def taxi : Expense :=
  { id := "e-taxi", description := "Taxi", category := "Transport", amount := 20,
    date := "2024-04-06", note := "" }

/-- A record of 20 in the month before `lunch`. -/
def rent : Expense :=
  { id := "e-rent", description := "Rent", category := "Housing", amount := 20,
    date := "2024-03-01", note := "" }

/-- The month key of a record. -/
def monthKey (expense : Expense) : String := formatMonthKey expense.date

/-- The records in scope: all of them for `"all"`, otherwise those of the
selected month. -/
def inScope (expenses : List Expense) (selectedMonth : String) : List Expense :=
  if selectedMonth = "all" then expenses
  else expenses.filter fun expense => formatMonthKey expense.date = selectedMonth

/-! ## Decimal literals -/

/-- The value of a decimal digit character. -/
def digitValue (c : Char) : Option Nat :=
  if '0' ≤ c ∧ c ≤ '9' then some (c.toNat - '0'.toNat) else none

/-- The longest run of decimal digits at the front: its length, its value
when read after the digits worth `value`, and the remaining characters. -/
def readDigits (value : Nat) : List Char → Nat × Nat × List Char
  | [] => (0, value, [])
  | c :: cs =>
    match digitValue c with
    | none => (0, value, c :: cs)
    | some d =>
      let rest := readDigits (10 * value + d) cs
      (rest.1 + 1, rest.2)

/-- The exponent part `e`, `e+` or `e-` followed by digits; anything else
is not part of the literal and counts as exponent 0. -/
def readExponent : List Char → ℤ
  | c :: cs =>
    if c = 'e' ∨ c = 'E' then
      match cs with
      | '-' :: ds => if (readDigits 0 ds).1 = 0 then 0 else -((readDigits 0 ds).2.1 : ℤ)
      | '+' :: ds => ((readDigits 0 ds).2.1 : ℤ)
      | ds => ((readDigits 0 ds).2.1 : ℤ)
    else 0
  | [] => 0

/-- The magnitude denoted by the longest decimal literal at the front of
`cs`, or `none` when no digit is found. -/
def readDecimal (cs : List Char) : Option ℚ :=
  let whole := readDigits 0 cs
  let fraction : Nat × Nat × List Char :=
    match whole.2.2 with
    | '.' :: ds => readDigits whole.2.1 ds
    | rest => (0, whole.2.1, rest)
  if whole.1 + fraction.1 = 0 then none
  else
    let exponent := readExponent fraction.2.2
    some ((fraction.2.1 : ℚ) / 10 ^ fraction.1 * 10 ^ exponent)

/-- A model of `Number.parseFloat` on text whose value is finite: leading
white space is skipped, a sign is read, and the longest decimal literal that
follows gives the value; `none` is `NaN`.  The literal `Infinity` is not
covered. -/
def parseFloatDecimal (text : String) : Option ℚ :=
  match text.data.dropWhile isWhiteSpace with
  | '-' :: cs => (readDecimal cs).map fun v => -v
  | '+' :: cs => readDecimal cs
  | cs => readDecimal cs

/-- A form state with a description and an amount that passes the checks of
`handleSubmit` before rounding. -/
def gumForm : NewExpense :=
  { description := " Gum ", category := "Food", amount := "0.004",
    date := "2024-04-09", note := "" }

/-- A record of 0.30, as a JavaScript number, in the category Transport. -/
def busPass : Expense :=
  { id := "e-bus", description := "Bus pass", category := "Transport",
    amount := binary64 (3 / 10), date := "2024-04-02", note := "" }

/-- A record of 0.10, as a JavaScript number, in the category Food. -/
def gum : Expense :=
  { id := "e-gum", description := "Gum", category := "Food",
    amount := binary64 (1 / 10), date := "2024-04-03", note := "" }

/-- A record of 0.20, as a JavaScript number, in the category Food. -/
def mint : Expense :=
  { id := "e-mint", description := "Mint", category := "Food",
    amount := binary64 (2 / 10), date := "2024-04-04", note := "" }

/-! ## The sort -/

section Sorting

variable {α κ : Type} [LinearOrder κ]

theorem sortedInsert_perm (engine : Engine) (comparefn : α → α → ℚ) (x : α) (l : List α) :
    (sortedInsert engine comparefn x l).Perm (x :: l) := by
  induction l with
  | nil => simp [sortedInsert]
  | cons y ys ih =>
    unfold sortedInsert
    split
    · exact List.Perm.refl _
    · exact (List.Perm.cons y ih).trans (List.Perm.swap x y ys)

theorem foldl_sortedInsert_perm (engine : Engine) (comparefn : α → α → ℚ)
    (l acc : List α) :
    (l.foldl (fun sorted x => sortedInsert engine comparefn x sorted) acc).Perm
      (acc ++ l) := by
  induction l generalizing acc with
  | nil => simp
  | cons x xs ih =>
    simp only [List.foldl_cons]
    refine (ih _).trans ?_
    refine ((sortedInsert_perm engine comparefn x acc).append_right xs).trans ?_
    simpa using (@List.perm_middle _ x acc xs).symm

theorem arraySort_perm (engine : Engine) (comparefn : α → α → ℚ) (l : List α) :
    (arraySort engine comparefn l).Perm l := by
  simpa [arraySort] using foldl_sortedInsert_perm engine comparefn l []

theorem sortedInsert_sorted {engine : Engine} {comparefn : α → α → ℚ} {key : α → κ}
    (hkey : ∀ x y, (goesBefore engine comparefn x y = true → key y ≤ key x) ∧
      (goesBefore engine comparefn x y = false → key x ≤ key y)) (x : α) {l : List α}
    (hl : l.Pairwise (fun a b => key b ≤ key a)) :
    (sortedInsert engine comparefn x l).Pairwise (fun a b => key b ≤ key a) := by
  induction l with
  | nil => simp [sortedInsert]
  | cons y ys ih =>
    rw [List.pairwise_cons] at hl
    unfold sortedInsert
    split
    · rename_i h
      have hxy : key y ≤ key x := (hkey x y).1 h
      refine List.pairwise_cons.2 ⟨?_, List.pairwise_cons.2 hl⟩
      intro b hb
      rcases List.mem_cons.1 hb with rfl | hb
      · exact hxy
      · exact (hl.1 b hb).trans hxy
    · rename_i h
      have hxy : key x ≤ key y := (hkey x y).2 (by simpa using h)
      refine List.pairwise_cons.2 ⟨?_, ih hl.2⟩
      intro b hb
      rcases List.mem_cons.1 ((sortedInsert_perm engine comparefn x ys).subset hb) with
        rfl | hb
      · exact hxy
      · exact hl.1 b hb

theorem foldl_sortedInsert_sorted {engine : Engine} {comparefn : α → α → ℚ}
    {key : α → κ} (hkey : ∀ x y, (goesBefore engine comparefn x y = true → key y ≤ key x) ∧
      (goesBefore engine comparefn x y = false → key x ≤ key y)) (l : List α) {acc : List α}
    (hacc : acc.Pairwise (fun a b => key b ≤ key a)) :
    (l.foldl (fun sorted x => sortedInsert engine comparefn x sorted) acc).Pairwise
      (fun a b => key b ≤ key a) := by
  induction l generalizing acc with
  | nil => simpa using hacc
  | cons x xs ih => exact ih (sortedInsert_sorted hkey x hacc)

theorem arraySort_sorted {engine : Engine} {comparefn : α → α → ℚ} {key : α → κ}
    (hkey : ∀ x y, (goesBefore engine comparefn x y = true → key y ≤ key x) ∧
      (goesBefore engine comparefn x y = false → key x ≤ key y)) (l : List α) :
    (arraySort engine comparefn l).Pairwise (fun a b => key b ≤ key a) :=
  foldl_sortedInsert_sorted hkey l List.Pairwise.nil

theorem ordersBy_of_lt {engine : Engine} {comparefn : α → α → ℚ} {key : α → κ}
    (h : ∀ x y, goesBefore engine comparefn x y = true ↔ key y < key x) :
    ∀ x y, (goesBefore engine comparefn x y = true → key y ≤ key x) ∧
      (goesBefore engine comparefn x y = false → key x ≤ key y) := by
  intro x y
  refine ⟨fun hb => ((h x y).1 hb).le, fun hb => ?_⟩
  refine not_lt.1 fun hlt => ?_
  rw [(h x y).2 hlt] at hb
  cases hb

theorem ordersBy_of_le {engine : Engine} {comparefn : α → α → ℚ} {key : α → κ}
    (h : ∀ x y, goesBefore engine comparefn x y = true ↔ key y ≤ key x) :
    ∀ x y, (goesBefore engine comparefn x y = true → key y ≤ key x) ∧
      (goesBefore engine comparefn x y = false → key x ≤ key y) := by
  intro x y
  refine ⟨fun hb => (h x y).1 hb, fun hb => ?_⟩
  refine le_of_lt (not_le.1 fun hle => ?_)
  rw [(h x y).2 hle] at hb
  cases hb

/-- Where only a strictly larger key moves in front, the elements of one key
keep their order. -/
theorem sortedInsert_filter {engine : Engine} {comparefn : α → α → ℚ} {key : α → κ}
    (hkey : ∀ x y, goesBefore engine comparefn x y = true ↔ key y < key x) (x : α)
    {k : κ} {p : α → Bool} (hp : ∀ a, p a = true ↔ key a = k) {l : List α}
    (hl : l.Pairwise (fun a b => key b ≤ key a)) :
    (sortedInsert engine comparefn x l).filter p = l.filter p ++ [x].filter p := by
  induction l with
  | nil => simp [sortedInsert]
  | cons y ys ih =>
    rw [List.pairwise_cons] at hl
    unfold sortedInsert
    split
    · rename_i h
      have hxy : key y < key x := (hkey x y).1 h
      by_cases hx : key x = k
      · have hnone : (y :: ys).filter p = [] := by
          rw [List.filter_eq_nil_iff]
          intro b hb
          have hby : key b ≤ key y := by
            rcases List.mem_cons.1 hb with rfl | hb
            · exact le_rfl
            · exact hl.1 b hb
          intro hpb
          rw [hp] at hpb
          exact (hby.trans_lt hxy).ne (hpb.trans hx.symm)
        rw [List.filter_cons_of_pos ((hp x).2 hx), hnone]
        simp [(hp x).2 hx]
      · have hpx : ¬ p x = true := fun h' => hx ((hp x).1 h')
        rw [List.filter_cons_of_neg hpx]
        simp [hpx]
    · by_cases hy : p y = true
      · rw [List.filter_cons_of_pos hy, List.filter_cons_of_pos hy, ih hl.2]
        simp
      · rw [List.filter_cons_of_neg hy, List.filter_cons_of_neg hy, ih hl.2]

theorem foldl_sortedInsert_filter {engine : Engine} {comparefn : α → α → ℚ}
    {key : α → κ}
    (hkey : ∀ x y, goesBefore engine comparefn x y = true ↔ key y < key x) {k : κ}
    {p : α → Bool} (hp : ∀ a, p a = true ↔ key a = k) (l acc : List α)
    (hacc : acc.Pairwise (fun a b => key b ≤ key a)) :
    (l.foldl (fun sorted x => sortedInsert engine comparefn x sorted) acc).filter p =
      acc.filter p ++ l.filter p := by
  induction l generalizing acc with
  | nil => simp
  | cons x xs ih =>
    simp only [List.foldl_cons]
    rw [ih _ (sortedInsert_sorted (ordersBy_of_lt hkey) x hacc),
      sortedInsert_filter hkey x hp hacc]
    simp [List.filter_cons]
    split <;> simp

theorem arraySort_filter {engine : Engine} {comparefn : α → α → ℚ} {key : α → κ}
    (hkey : ∀ x y, goesBefore engine comparefn x y = true ↔ key y < key x) {k : κ}
    {p : α → Bool} (hp : ∀ a, p a = true ↔ key a = k) (l : List α) :
    (arraySort engine comparefn l).filter p = l.filter p := by
  simpa [arraySort] using foldl_sortedInsert_filter hkey hp l [] List.Pairwise.nil

/-- Where an equal key moves in front as well, the elements of one key come
out in the reverse of their order. -/
theorem sortedInsert_filter_front {engine : Engine} {comparefn : α → α → ℚ}
    {key : α → κ}
    (hkey : ∀ x y, goesBefore engine comparefn x y = true ↔ key y ≤ key x) (x : α)
    {k : κ} {p : α → Bool} (hp : ∀ a, p a = true ↔ key a = k) (l : List α) :
    (sortedInsert engine comparefn x l).filter p = [x].filter p ++ l.filter p := by
  induction l with
  | nil => simp [sortedInsert]
  | cons y ys ih =>
    unfold sortedInsert
    split
    · by_cases hx : p x = true <;> simp [List.filter_cons, hx]
    · rename_i h
      have hxy : ¬ key y ≤ key x := fun hle => h ((hkey x y).2 hle)
      by_cases hx : p x = true
      · have hy : ¬ p y = true := by
          intro hpy
          exact hxy (((hp y).1 hpy).trans ((hp x).1 hx).symm).le
        rw [List.filter_cons_of_neg hy, ih, List.filter_cons_of_neg hy]
      · by_cases hy : p y = true
        · rw [List.filter_cons_of_pos hy, ih, List.filter_cons_of_pos hy]
          simp [hx]
        · rw [List.filter_cons_of_neg hy, ih, List.filter_cons_of_neg hy]

theorem foldl_sortedInsert_filter_front {engine : Engine} {comparefn : α → α → ℚ}
    {key : α → κ}
    (hkey : ∀ x y, goesBefore engine comparefn x y = true ↔ key y ≤ key x) {k : κ}
    {p : α → Bool} (hp : ∀ a, p a = true ↔ key a = k) (l acc : List α) :
    (l.foldl (fun sorted x => sortedInsert engine comparefn x sorted) acc).filter p =
      (l.filter p).reverse ++ acc.filter p := by
  induction l generalizing acc with
  | nil => simp
  | cons x xs ih =>
    simp only [List.foldl_cons]
    rw [ih, sortedInsert_filter_front hkey x hp acc]
    by_cases hx : p x = true
    · simp [List.filter_cons, hx]
    · simp [List.filter_cons, hx]

theorem arraySort_filter_front {engine : Engine} {comparefn : α → α → ℚ} {key : α → κ}
    (hkey : ∀ x y, goesBefore engine comparefn x y = true ↔ key y ≤ key x) {k : κ}
    {p : α → Bool} (hp : ∀ a, p a = true ↔ key a = k) (l : List α) :
    (arraySort engine comparefn l).filter p = (l.filter p).reverse := by
  simpa [arraySort] using foldl_sortedInsert_filter_front hkey hp l []

theorem descending_ltZero (key : α → κ) (x y : α) :
    goesBefore Engine.ltZero (descending key) x y = true ↔ key y < key x := by
  simp only [goesBefore, descending, decide_eq_true_eq]
  split
  · rename_i h
    simpa using h
  · rename_i h
    constructor
    · intro h0
      norm_num at h0
    · intro h0
      exact absurd h0 h

theorem descending_leZero (key : α → κ) (x y : α) :
    goesBefore Engine.leZero (descending key) x y = true ↔ key y ≤ key x := by
  simp only [goesBefore, descending, Bool.not_eq_true', decide_eq_false_iff_not]
  split
  · rename_i h
    constructor
    · intro h0
      norm_num at h0
    · intro h0
      exact absurd h (not_lt.2 h0)
  · rename_i h
    constructor
    · intro _
      exact not_lt.1 h
    · intro _
      norm_num

theorem descending_ordersBy (engine : Engine) (key : α → κ) :
    ∀ x y, (goesBefore engine (descending key) x y = true → key y ≤ key x) ∧
      (goesBefore engine (descending key) x y = false → key x ≤ key y) := by
  cases engine with
  | ltZero => exact ordersBy_of_lt (descending_ltZero key)
  | leZero => exact ordersBy_of_le (descending_leZero key)

/-- The comparator `(a, b) => b[1] - a[1]` moves in front exactly the
strictly larger value, under either test. -/
theorem difference_goesBefore (engine : Engine) (x y : String × ℚ) :
    goesBefore engine (fun a b : String × ℚ => b.2 - a.2) x y = true ↔
      Prod.snd y < Prod.snd x := by
  cases engine with
  | ltZero => simp [goesBefore]
  | leZero => simp [goesBefore]

end Sorting

/-! ## Sets in insertion order -/

section Sets

variable {α : Type} [DecidableEq α]

theorem mem_setAdd (s : List α) (x y : α) : y ∈ setAdd s x ↔ y ∈ s ∨ y = x := by
  unfold setAdd
  split
  · rename_i h
    constructor
    · exact Or.inl
    · rintro (h' | rfl)
      · exact h'
      · exact h
  · simp

theorem nodup_setAdd {s : List α} (hs : s.Nodup) (x : α) : (setAdd s x).Nodup := by
  unfold setAdd
  split
  · exact hs
  · rename_i h
    rw [List.nodup_append]
    refine ⟨hs, List.nodup_singleton x, ?_⟩
    intro a ha hb
    rw [List.mem_singleton] at hb
    subst hb
    exact h ha

theorem setAdd_extends (s : List α) (x : α) : ∃ t, setAdd s x = s ++ t := by
  unfold setAdd
  split
  · exact ⟨[], by simp⟩
  · exact ⟨[x], rfl⟩

theorem mem_foldl_setAdd (l acc : List α) (y : α) :
    y ∈ l.foldl setAdd acc ↔ y ∈ acc ∨ y ∈ l := by
  induction l generalizing acc with
  | nil => simp
  | cons x xs ih =>
    simp only [List.foldl_cons, ih, mem_setAdd, List.mem_cons]
    tauto

theorem nodup_foldl_setAdd (l : List α) {acc : List α} (hacc : acc.Nodup) :
    (l.foldl setAdd acc).Nodup := by
  induction l generalizing acc with
  | nil => simpa using hacc
  | cons x xs ih => exact ih (nodup_setAdd hacc x)

theorem foldl_setAdd_extends (l acc : List α) : ∃ t, l.foldl setAdd acc = acc ++ t := by
  induction l generalizing acc with
  | nil => exact ⟨[], by simp⟩
  | cons x xs ih =>
    obtain ⟨t, ht⟩ := ih (setAdd acc x)
    obtain ⟨t', ht'⟩ := setAdd_extends acc x
    refine ⟨t' ++ t, ?_⟩
    rw [List.foldl_cons, ht, ht', List.append_assoc]

theorem mem_newSet (l : List α) (y : α) : y ∈ newSet l ↔ y ∈ l := by
  simp [newSet, mem_foldl_setAdd]

theorem nodup_newSet (l : List α) : (newSet l).Nodup :=
  nodup_foldl_setAdd l List.nodup_nil

theorem length_newSet (l : List α) : (newSet l).length = l.toFinset.card := by
  rw [← List.toFinset_card_of_nodup (nodup_newSet l)]
  congr 1
  ext y
  simp [mem_newSet]

/-- An element of `newSet l` is preceded there by every value that precedes
its first occurrence in `l`. -/
theorem newSet_split {l front back : List α} {a : α}
    (h : newSet l = front ++ a :: back) :
    ∃ l₁ l₂, l = l₁ ++ a :: l₂ ∧ ∀ x ∈ l₁, x ∈ front := by
  have ha : a ∈ l := (mem_newSet l a).1 (by rw [h]; simp)
  obtain ⟨l₁, l₂, hl, hnot⟩ := List.eq_append_cons_of_mem ha
  refine ⟨l₁, l₂, hl, ?_⟩
  have hnot' : a ∉ newSet l₁ := fun hmem => hnot ((mem_newSet l₁ a).1 hmem)
  obtain ⟨t, ht⟩ := foldl_setAdd_extends l₂ (newSet l₁ ++ [a])
  have hsplit : newSet l = newSet l₁ ++ a :: t := by
    have hadd : setAdd (newSet l₁) a = newSet l₁ ++ [a] := by
      unfold setAdd
      rw [if_neg hnot']
    rw [hl]
    show List.foldl setAdd [] (l₁ ++ a :: l₂) = _
    rw [List.foldl_append, List.foldl_cons]
    change List.foldl setAdd (setAdd (newSet l₁) a) l₂ = _
    rw [hadd, ht]
    simp
  have hnd : (front ++ a :: back).Nodup := h ▸ nodup_newSet l
  have hfront : a ∉ front := fun hmem =>
    (List.nodup_append.1 hnd).2.2 hmem (List.mem_cons_self a back)
  have hback : a ∉ back := (List.nodup_cons.1 (List.nodup_append.1 hnd).2.1).1
  have heq : front = newSet l₁ :=
    ((List.append_cons_inj_of_not_mem hfront hback).1 (h.symm.trans hsplit)).1
  intro x hx
  rw [heq]
  exact (mem_newSet l₁ x).2 hx

end Sets

/-! ## Dictionaries in insertion order -/

theorem orZero_some (v : ℚ) : orZero (some v) = v := by
  show (if v = 0 then 0 else v) = v
  split
  · rename_i h
    exact h.symm
  · rfl

theorem dictSet_keys (dict : List (String × ℚ)) (key : String) (value : ℚ) :
    (dictSet dict key value).map Prod.fst = setAdd (dict.map Prod.fst) key := by
  induction dict with
  | nil => simp [dictSet, setAdd]
  | cons p rest ih =>
    obtain ⟨k, v⟩ := p
    unfold dictSet
    split
    · rename_i h
      simp [setAdd, h]
    · rename_i h
      have hne : ¬ key = k := fun h' => h h'.symm
      simp only [List.map_cons, ih]
      unfold setAdd
      by_cases hmem : key ∈ rest.map Prod.fst
      · simp [hmem]
      · simp [hmem, hne]

theorem dictGet_dictSet (dict : List (String × ℚ)) (key key' : String) (value : ℚ) :
    dictGet (dictSet dict key value) key' =
      if key' = key then some value else dictGet dict key' := by
  induction dict with
  | nil =>
    by_cases h : key' = key
    · simp [dictSet, dictGet, h]
    · have h' : ¬ key = key' := fun e => h e.symm
      simp [dictSet, dictGet, h, h']
  | cons p rest ih =>
    obtain ⟨k, v⟩ := p
    unfold dictSet
    by_cases hk : k = key
    · rw [if_pos hk]
      by_cases h : key' = key
      · simp [dictGet, h, hk]
      · have h' : ¬ k = key' := fun e => h (e.symm.trans hk)
        simp [dictGet, h, h']
    · rw [if_neg hk]
      by_cases hk' : k = key'
      · have h : ¬ key' = key := fun e => hk (hk'.trans e)
        simp [dictGet, hk', h]
      · simp only [dictGet, if_neg hk', ih]

theorem dictSet_values (dict : List (String × ℚ)) (key : String) (value : ℚ) :
    ((dictSet dict key value).map Prod.snd).sum =
      (dict.map Prod.snd).sum - orZero (dictGet dict key) + value := by
  induction dict with
  | nil => simp [dictSet, dictGet, orZero]
  | cons p rest ih =>
    obtain ⟨k, v⟩ := p
    unfold dictSet
    by_cases hk : k = key
    · simp only [if_pos hk, dictGet, List.map_cons, List.sum_cons, orZero_some]
      ring
    · simp only [if_neg hk, dictGet, List.map_cons, List.sum_cons, ih]
      ring

theorem dictGet_of_mem {dict : List (String × ℚ)} (hnd : (dict.map Prod.fst).Nodup)
    {k : String} {v : ℚ} (h : (k, v) ∈ dict) : dictGet dict k = some v := by
  induction dict with
  | nil => simp at h
  | cons p rest ih =>
    obtain ⟨k', v'⟩ := p
    rw [List.map_cons, List.nodup_cons] at hnd
    rcases List.mem_cons.1 h with heq | hmem
    · cases heq
      simp [dictGet]
    · have hne : ¬ k' = k := by
        rintro rfl
        exact hnd.1 (List.mem_map.2 ⟨(k', v), hmem, rfl⟩)
      simp only [dictGet, if_neg hne]
      exact ih hnd.2 hmem

theorem accumulate_keys (rounding : ℚ → ℚ) (key : Expense → String) (l : List Expense)
    (dict : List (String × ℚ)) :
    (accumulate rounding key dict l).map Prod.fst =
      (l.map key).foldl setAdd (dict.map Prod.fst) := by
  induction l generalizing dict with
  | nil => rfl
  | cons e es ih =>
    simp only [accumulate, List.foldl_cons, List.map_cons] at ih ⊢
    rw [ih, dictSet_keys]

theorem accumulate_get (rounding : ℚ → ℚ) (key : Expense → String) (l : List Expense)
    (dict : List (String × ℚ)) (k : String) :
    orZero (dictGet (accumulate rounding key dict l) k) =
      (l.filter fun e => key e = k).foldl (fun s e => rounding (s + e.amount))
        (orZero (dictGet dict k)) := by
  induction l generalizing dict with
  | nil => simp [accumulate]
  | cons e es ih =>
    simp only [accumulate, List.foldl_cons] at ih ⊢
    rw [ih, dictGet_dictSet]
    by_cases h : k = key e
    · have h' : key e = k := h.symm
      simp [h, orZero_some, List.filter_cons]
    · have h' : ¬ key e = k := fun e' => h e'.symm
      simp [h, h', List.filter_cons]

theorem foldl_add_eq_sum (l : List Expense) (s : ℚ) :
    l.foldl (fun s e => s + e.amount) s = s + (l.map Expense.amount).sum := by
  induction l generalizing s with
  | nil => simp
  | cons e es ih =>
    rw [List.foldl_cons, ih, List.map_cons, List.sum_cons]
    ring

theorem subtotalWhere_id (key : Expense → String) (l : List Expense) (k : String) :
    subtotalWhere id key l k = amountWhere key l k := by
  simp only [subtotalWhere, amountWhere, id_eq]
  rw [foldl_add_eq_sum, zero_add]

theorem accumulate_values (key : Expense → String) (l : List Expense)
    (dict : List (String × ℚ)) :
    ((accumulate id key dict l).map Prod.snd).sum =
      (dict.map Prod.snd).sum + (l.map Expense.amount).sum := by
  induction l generalizing dict with
  | nil => simp [accumulate]
  | cons e es ih =>
    simp only [accumulate, List.foldl_cons] at ih ⊢
    rw [ih, dictSet_values]
    simp only [List.map_cons, List.sum_cons, id]
    ring

theorem accumulate_nil_keys (rounding : ℚ → ℚ) (key : Expense → String)
    (l : List Expense) :
    (accumulate rounding key [] l).map Prod.fst = newSet (l.map key) := by
  rw [accumulate_keys]
  rfl

/-- Every entry of the accumulated dictionary holds the subtotal of the
records with its key. -/
theorem accumulate_entry (rounding : ℚ → ℚ) (key : Expense → String) (l : List Expense)
    {k : String} {v : ℚ} (h : (k, v) ∈ accumulate rounding key [] l) :
    k ∈ l.map key ∧ v = subtotalWhere rounding key l k := by
  have hnd : ((accumulate rounding key [] l).map Prod.fst).Nodup := by
    rw [accumulate_nil_keys]
    exact nodup_newSet _
  have hk : k ∈ (accumulate rounding key [] l).map Prod.fst :=
    List.mem_map.2 ⟨(k, v), h, rfl⟩
  rw [accumulate_nil_keys, mem_newSet] at hk
  refine ⟨hk, ?_⟩
  have hget := accumulate_get rounding key l [] k
  rw [dictGet_of_mem hnd h, orZero_some] at hget
  simpa [dictGet, orZero, subtotalWhere] using hget

/-! ## The first entry of a sorted array -/

theorem arraySort_head {α κ : Type} [LinearOrder κ] {engine : Engine}
    {comparefn : α → α → ℚ} {key : α → κ}
    (hkey : ∀ x y, goesBefore engine comparefn x y = true ↔ key y < key x)
    {l : List α} (hl : l ≠ []) :
    ∃ top front back, (arraySort engine comparefn l).head? = some top ∧
      l = front ++ top :: back ∧ (∀ e ∈ l, key e ≤ key top) ∧
      ∀ e ∈ front, key e < key top := by
  have hperm := arraySort_perm engine comparefn l
  have hsorted := arraySort_sorted (ordersBy_of_lt hkey) l
  have hstable := fun k : κ =>
    arraySort_filter hkey (k := k) (p := fun a => decide (key a = k)) (by simp) l
  cases hs : arraySort engine comparefn l with
  | nil =>
    rw [hs] at hperm
    exact absurd (List.Perm.nil_eq hperm).symm hl
  | cons top rest =>
    rw [hs] at hperm hsorted
    have hmax : ∀ e ∈ l, key e ≤ key top := by
      intro e he
      rcases List.mem_cons.1 (hperm.symm.subset he) with rfl | hmem
      · exact le_rfl
      · exact (List.pairwise_cons.1 hsorted).1 e hmem
    have hfilter := hstable (key top)
    rw [hs, List.filter_cons_of_pos (by simp)] at hfilter
    obtain ⟨front, back, hsplit, hfront, -, -⟩ := List.filter_eq_cons_iff.1 hfilter.symm
    refine ⟨top, front, back, rfl, hsplit, hmax, ?_⟩
    intro e he
    have hne : key e ≠ key top := by simpa using hfront e he
    exact lt_of_le_of_ne (hmax e (by rw [hsplit]; simp [he])) hne

/-! ## The loop of `totals` -/

theorem foldl_totalsStep (rounding : ℚ → ℚ) (l : List Expense)
    (s : Totals × List String) :
    (l.foldl (totalsStep rounding) s).1.total =
      l.foldl (fun t e => rounding (t + e.amount)) s.1.total ∧
    (l.foldl (totalsStep rounding) s).1.byCategory =
      accumulate rounding Expense.category s.1.byCategory l ∧
    (l.foldl (totalsStep rounding) s).2 = (l.map Expense.date).foldl setAdd s.2 ∧
    (l.foldl (totalsStep rounding) s).1.count = s.1.count := by
  induction l generalizing s with
  | nil => simp [accumulate]
  | cons e es ih =>
    obtain ⟨h1, h2, h3, h4⟩ := ih (totalsStep rounding s e)
    simp only [List.foldl_cons, List.map_cons]
    refine ⟨?_, ?_, ?_, ?_⟩
    · rw [h1]
      rfl
    · rw [h2]
      rfl
    · rw [h3]
      rfl
    · rw [h4]
      rfl

theorem totals_total (l : List Expense) :
    (totals id l).total = (l.map Expense.amount).sum := by
  cases l with
  | nil => rfl
  | cons e es =>
    have h := (foldl_totalsStep id (e :: es)
      ({ total := 0, byCategory := [], average := 0, count := (e :: es).length }, [])).1
    simp only [id_eq] at h
    rw [foldl_add_eq_sum] at h
    simp only [totals, totalsLoop, List.length_cons, Nat.succ_ne_zero, if_false] at h ⊢
    simpa using h

theorem totals_byCategory (rounding : ℚ → ℚ) (l : List Expense) :
    (totals rounding l).byCategory = accumulate rounding Expense.category [] l := by
  cases l with
  | nil => rfl
  | cons e es =>
    have h := (foldl_totalsStep rounding (e :: es)
      ({ total := 0, byCategory := [], average := 0, count := (e :: es).length }, [])).2.1
    simp only [totals, totalsLoop, List.length_cons, Nat.succ_ne_zero, if_false] at h ⊢
    simpa using h

theorem totalsLoop_daySet (rounding : ℚ → ℚ) (l : List Expense) :
    (totalsLoop rounding l).2 = newSet (l.map Expense.date) :=
  (foldl_totalsStep rounding l _).2.2.1

theorem totals_average (rounding : ℚ → ℚ) (e : Expense) (es : List Expense) :
    (totals rounding (e :: es)).average =
      rounding ((totals rounding (e :: es)).total /
        ((totalsLoop rounding (e :: es)).2.length : ℚ)) := by
  simp [totals]

/-! ## Rounding to binary64 -/

theorem roundHalfEven_intCast (z : ℤ) : roundHalfEven (z : ℚ) = z := by
  unfold roundHalfEven
  rw [Int.floor_intCast]
  norm_num

theorem roundHalfEven_mem (x : ℚ) :
    roundHalfEven x = ⌊x⌋ ∨ roundHalfEven x = ⌊x⌋ + 1 := by
  unfold roundHalfEven
  split_ifs <;> simp

theorem roundHalfEven_mono {x y : ℚ} (h : x ≤ y) : roundHalfEven x ≤ roundHalfEven y := by
  have hfl : ⌊x⌋ ≤ ⌊y⌋ := Int.floor_mono h
  rcases lt_or_eq_of_le hfl with hlt | heq
  · rcases roundHalfEven_mem x with hx | hx <;> rcases roundHalfEven_mem y with hy | hy <;>
      omega
  · unfold roundHalfEven
    rw [← heq]
    split_ifs <;> first
      | omega
      | (exfalso; linarith)

theorem roundHalfEven_neg (x : ℚ) : roundHalfEven (-x) = -roundHalfEven x := by
  by_cases hint : (⌊x⌋ : ℚ) = x
  · rw [← hint, ← Int.cast_neg, roundHalfEven_intCast, roundHalfEven_intCast]
  · have hlo : (⌊x⌋ : ℚ) < x := lt_of_le_of_ne (Int.floor_le x) hint
    have hhi : x < ⌊x⌋ + 1 := Int.lt_floor_add_one x
    have hfl : ⌊-x⌋ = -⌊x⌋ - 1 := by
      rw [Int.floor_eq_iff]
      push_cast
      constructor <;> linarith
    unfold roundHalfEven
    rw [hfl]
    push_cast
    split_ifs <;> first
      | omega
      | (exfalso; linarith)

theorem roundHalfEven_nonneg {x : ℚ} (h : 0 ≤ x) : 0 ≤ roundHalfEven x := by
  have := roundHalfEven_mono h
  rwa [← Int.cast_zero, roundHalfEven_intCast] at this

theorem binary64Exponent_neg (x : ℚ) : binary64Exponent (-x) = binary64Exponent x := by
  unfold binary64Exponent
  rw [abs_neg]

theorem binary64_neg (x : ℚ) : binary64 (-x) = -binary64 x := by
  unfold binary64
  rw [binary64Exponent_neg, neg_div, roundHalfEven_neg]
  push_cast
  ring

theorem binary64_nonneg {x : ℚ} (h : 0 ≤ x) : 0 ≤ binary64 x := by
  unfold binary64
  have hpos : (0 : ℚ) < 2 ^ binary64Exponent x := by positivity
  have : 0 ≤ roundHalfEven (x / 2 ^ binary64Exponent x) :=
    roundHalfEven_nonneg (div_nonneg h hpos.le)
  have hc : (0 : ℚ) ≤ (roundHalfEven (x / 2 ^ binary64Exponent x) : ℚ) := by
    exact_mod_cast this
  exact mul_nonneg hc hpos.le

theorem binary64Exponent_mono {x y : ℚ} (hx : 0 < x) (h : x ≤ y) :
    binary64Exponent x ≤ binary64Exponent y := by
  unfold binary64Exponent
  rw [abs_of_pos hx, abs_of_pos (hx.trans_le h)]
  have := Int.log_mono_right (b := 2) hx h
  exact max_le_max (by omega) le_rfl

theorem binary64_mono_pos {x y : ℚ} (hx : 0 < x) (h : x ≤ y) :
    binary64 x ≤ binary64 y := by
  have hy : 0 < y := hx.trans_le h
  have hexp := binary64Exponent_mono hx h
  rcases lt_or_eq_of_le hexp with hlt | heq
  · -- different binades: the rounded values are separated by a power of two
    have hpx : (0 : ℚ) < 2 ^ binary64Exponent x := by positivity
    have hpy : (0 : ℚ) < 2 ^ binary64Exponent y := by positivity
    have hlogx : Int.log 2 x - 52 ≤ binary64Exponent x := by
      unfold binary64Exponent
      rw [abs_of_pos hx]
      exact le_max_left _ _
    have hey : binary64Exponent y = Int.log 2 y - 52 := by
      have h1074 : -1074 ≤ binary64Exponent x := by
        unfold binary64Exponent
        exact le_max_right _ _
      have hlt' : -1074 < binary64Exponent y := by omega
      unfold binary64Exponent at hlt' ⊢
      rw [abs_of_pos hy] at hlt' ⊢
      rcases max_cases (Int.log 2 y - 52) (-1074) with hc | hc
      · exact hc.1
      · rw [hc.1] at hlt'
        omega
    -- upper bound for x
    have hxlt : x < 2 ^ (binary64Exponent x + 53) := by
      have h1 : x < (2 : ℚ) ^ (Int.log 2 x + 1) := by
        exact_mod_cast Int.lt_zpow_succ_log_self (b := 2) (by norm_num) x
      have h2 : (2 : ℚ) ^ (Int.log 2 x + 1) ≤ 2 ^ (binary64Exponent x + 53) :=
        zpow_le_zpow_right₀ (by norm_num) (by omega)
      exact h1.trans_le h2
    have hmx : x / 2 ^ binary64Exponent x ≤ ((2 ^ 53 : ℤ) : ℚ) := by
      rw [div_le_iff₀ hpx]
      have : (2 : ℚ) ^ (binary64Exponent x + 53) =
          ((2 ^ 53 : ℤ) : ℚ) * 2 ^ binary64Exponent x := by
        rw [zpow_add₀ (by norm_num)]
        norm_num
        ring
      rw [← this]
      exact hxlt.le
    have hrx : roundHalfEven (x / 2 ^ binary64Exponent x) ≤ 2 ^ 53 := by
      have := roundHalfEven_mono hmx
      rwa [roundHalfEven_intCast] at this
    -- lower bound for y
    have hyge : (2 : ℚ) ^ (binary64Exponent y + 52) ≤ y := by
      rw [hey]
      have : Int.log 2 y - 52 + 52 = Int.log 2 y := by ring
      rw [this]
      exact_mod_cast Int.zpow_log_le_self (b := 2) (by norm_num) hy
    have hmy : ((2 ^ 52 : ℤ) : ℚ) ≤ y / 2 ^ binary64Exponent y := by
      rw [le_div_iff₀ hpy]
      have : (2 : ℚ) ^ (binary64Exponent y + 52) =
          ((2 ^ 52 : ℤ) : ℚ) * 2 ^ binary64Exponent y := by
        rw [zpow_add₀ (by norm_num)]
        norm_num
        ring
      rw [← this]
      exact hyge
    have hry : 2 ^ 52 ≤ roundHalfEven (y / 2 ^ binary64Exponent y) := by
      have := roundHalfEven_mono hmy
      rwa [roundHalfEven_intCast] at this
    have hstep : (2 : ℚ) * 2 ^ binary64Exponent x ≤ 2 ^ binary64Exponent y := by
      have : (2 : ℚ) * 2 ^ binary64Exponent x = 2 ^ (binary64Exponent x + 1) := by
        rw [zpow_add₀ (by norm_num)]
        norm_num
        ring
      rw [this]
      exact zpow_le_zpow_right₀ (by norm_num) (by omega)
    unfold binary64
    have hrx' : (roundHalfEven (x / 2 ^ binary64Exponent x) : ℚ) ≤ 2 ^ 53 := by
      exact_mod_cast hrx
    have hry' : (2 : ℚ) ^ 52 ≤ (roundHalfEven (y / 2 ^ binary64Exponent y) : ℚ) := by
      exact_mod_cast hry
    calc (roundHalfEven (x / 2 ^ binary64Exponent x) : ℚ) * 2 ^ binary64Exponent x
        ≤ 2 ^ 53 * 2 ^ binary64Exponent x := mul_le_mul_of_nonneg_right hrx' hpx.le
      _ = 2 ^ 52 * (2 * 2 ^ binary64Exponent x) := by ring
      _ ≤ 2 ^ 52 * 2 ^ binary64Exponent y :=
          mul_le_mul_of_nonneg_left hstep (by positivity)
      _ ≤ (roundHalfEven (y / 2 ^ binary64Exponent y) : ℚ) * 2 ^ binary64Exponent y :=
          mul_le_mul_of_nonneg_right hry' hpy.le
  · unfold binary64
    rw [← heq]
    have hp : (0 : ℚ) < 2 ^ binary64Exponent x := by positivity
    have hdiv : x / 2 ^ binary64Exponent x ≤ y / 2 ^ binary64Exponent x :=
      div_le_div_of_nonneg_right h hp.le
    have := roundHalfEven_mono hdiv
    have hc : (roundHalfEven (x / 2 ^ binary64Exponent x) : ℚ) ≤
        (roundHalfEven (y / 2 ^ binary64Exponent x) : ℚ) := by exact_mod_cast this
    exact mul_le_mul_of_nonneg_right hc hp.le

theorem binary64_zero : binary64 0 = 0 := by
  unfold binary64
  rw [zero_div, ← Int.cast_zero, roundHalfEven_intCast]
  simp

/-- Rounding to binary64 keeps the order. -/
theorem binary64_mono {x y : ℚ} (h : x ≤ y) : binary64 x ≤ binary64 y := by
  rcases lt_trichotomy x 0 with hx | hx | hx
  · rcases lt_trichotomy y 0 with hy | hy | hy
    · have := binary64_mono_pos (neg_pos.2 hy) (neg_le_neg h)
      rw [binary64_neg, binary64_neg] at this
      linarith
    · rw [hy, binary64_zero]
      have := binary64_nonneg (neg_nonneg.2 hx.le)
      rw [binary64_neg] at this
      linarith
    · have h1 := binary64_nonneg (neg_nonneg.2 hx.le)
      rw [binary64_neg] at h1
      have h2 := binary64_nonneg hy.le
      linarith
  · rw [hx, binary64_zero]
    exact binary64_nonneg (hx ▸ h)
  · exact binary64_mono_pos hx h

/-- An integer below `2 ^ 53` in absolute value is a binary64 value. -/
theorem binary64_intCast (n : ℤ) (h : |n| < 2 ^ 53) : binary64 (n : ℚ) = n := by
  have hexp : binary64Exponent (n : ℚ) ≤ 0 := by
    unfold binary64Exponent
    refine max_le ?_ (by norm_num)
    by_cases h0 : n = 0
    · subst h0
      simp [Int.log_zero_right]
    · have hpos : (0 : ℚ) < |(n : ℚ)| := abs_pos.2 (by exact_mod_cast h0)
      have hlt : |(n : ℚ)| < ((2 : ℕ) : ℚ) ^ (53 : ℤ) := by
        have h' : ((|n| : ℤ) : ℚ) < ((2 ^ 53 : ℤ) : ℚ) := by exact_mod_cast h
        rw [Int.cast_abs] at h'
        norm_num at h' ⊢
        exact h'
      have := (Int.lt_zpow_iff_log_lt (b := 2) (by norm_num) hpos).1 hlt
      omega
  obtain ⟨k, hk⟩ : ∃ k : ℕ, binary64Exponent (n : ℚ) = -(k : ℤ) :=
    ⟨(-binary64Exponent (n : ℚ)).toNat, by omega⟩
  unfold binary64
  rw [hk]
  have hdiv : (n : ℚ) / 2 ^ (-(k : ℤ)) = ((n * 2 ^ k : ℤ) : ℚ) := by
    rw [zpow_neg, zpow_natCast]
    push_cast
    field_simp
  rw [hdiv, roundHalfEven_intCast, zpow_neg, zpow_natCast]
  push_cast
  field_simp

/-! ## The claims -/

/-- C1: for every list of records, with amounts taken as exact rationals,
`totals` returns a `total` equal to the sum of `amount` over the records, the
same for every reordering `l'` of the list, and the values stored in
`byCategory` add up to that `total`. -/
theorem totals_total_sum (l l' : List Expense) (h : l.Perm l') :
    (totals id l).total = (l.map Expense.amount).sum ∧
    (totals id l').total = (totals id l).total ∧
    ((totals id l).byCategory.map Prod.snd).sum = (totals id l).total := by
  refine ⟨totals_total l, ?_, ?_⟩
  · rw [totals_total, totals_total]
    exact ((h.map Expense.amount).sum_eq).symm
  · rw [totals_byCategory, accumulate_values, totals_total]
    simp

theorem totals_total_sum_witness :
    [lunch, taxi, rent].Perm [taxi, lunch, rent] ∧
    (totals id [lunch, taxi, rent]).total =
      ([lunch, taxi, rent].map Expense.amount).sum ∧
    (totals id [taxi, lunch, rent]).total = (totals id [lunch, taxi, rent]).total ∧
    ((totals id [lunch, taxi, rent]).byCategory.map Prod.snd).sum =
      (totals id [lunch, taxi, rent]).total :=
  ⟨List.Perm.swap taxi lunch [rent],
    totals_total_sum [lunch, taxi, rent] [taxi, lunch, rent] (List.Perm.swap taxi lunch [rent])⟩

theorem filteredExpenses_eq (engine : Engine) (expenses : List Expense)
    (selectedMonth : String) :
    filteredExpenses engine expenses selectedMonth =
      arraySort engine (descending Expense.date) (inScope expenses selectedMonth) := by
  unfold filteredExpenses filteredExpensesRun inScope
  split <;> rfl

theorem filteredExpensesRun_fst (engine : Engine) (expenses : List Expense)
    (selectedMonth : String) :
    (filteredExpensesRun engine expenses selectedMonth).1 = expenses := by
  unfold filteredExpensesRun
  split <;> rfl

/-- C2: for every list of records and every scope, under either test of the
sort, `filteredExpenses` is a permutation of the records in scope (the whole
list for `"all"`, otherwise the records whose `formatMonthKey(date)` is the
scope), so it holds each of them exactly once and nothing else, and the array
`expenses` is left as it was. -/
theorem filteredExpenses_perm (engine : Engine) (expenses : List Expense)
    (selectedMonth : String) :
    (filteredExpenses engine expenses "all").Perm expenses ∧
    (filteredExpenses engine expenses selectedMonth).Perm
      (if selectedMonth = "all" then expenses
       else expenses.filter fun e => formatMonthKey e.date = selectedMonth) ∧
    (∀ e, (filteredExpenses engine expenses selectedMonth).count e =
      if selectedMonth = "all" ∨ formatMonthKey e.date = selectedMonth
      then expenses.count e else 0) ∧
    (filteredExpensesRun engine expenses selectedMonth).1 = expenses := by
  have hperm := arraySort_perm engine (descending Expense.date)
    (inScope expenses selectedMonth)
  rw [← filteredExpenses_eq] at hperm
  refine ⟨?_, hperm, ?_, ?_⟩
  · have h := arraySort_perm engine (descending Expense.date) (inScope expenses "all")
    rw [← filteredExpenses_eq] at h
    simpa [inScope] using h
  · intro e
    rw [hperm.count_eq]
    unfold inScope
    by_cases hall : selectedMonth = "all"
    · simp [hall]
    · simp only [hall, if_false, false_or]
      by_cases hk : formatMonthKey e.date = selectedMonth
      · rw [if_pos hk, List.count_filter (by simpa using hk)]
      · rw [if_neg hk]
        exact List.count_eq_zero_of_not_mem fun hmem =>
          hk (by simpa using (List.mem_filter.1 hmem).2)
  · exact filteredExpensesRun_fst engine expenses selectedMonth

/-- C7, as stated, fails where the sort leaves an element behind only on
`comparefn(y, x) <= 0`: the comparator gives 1 both ways for `lunch` and
`taxi`, which share a date, so `taxi` moves in front of `lunch` and the two
records come out in the reverse of their input order. -/
theorem filteredExpenses_ties_reversed :
    filteredExpenses Engine.leZero [lunch, taxi] "all" = [taxi, lunch] ∧
    (filteredExpenses Engine.leZero [lunch, taxi] "all").filter
        (fun e => e.date = "2024-04-06") ≠
      [lunch, taxi].filter (fun e => e.date = "2024-04-06") := by
  have hsort : filteredExpenses Engine.leZero [lunch, taxi] "all" = [taxi, lunch] := by
    simp [filteredExpenses, filteredExpensesRun, arraySort, sortedInsert, goesBefore,
      descending, lunch, taxi]
  refine ⟨hsort, ?_⟩
  rw [hsort]
  decide

/-- C7, amended: for every list of records and every scope, under either test
of the sort, `filteredExpenses` is ordered descending by `date`; the records
sharing a date `d` appear in the order they have among the records in scope
of the input list when the sort moves an element on `comparefn(x, y) < 0`,
and in the reverse of that order when it leaves an element behind only on
`comparefn(y, x) <= 0`. -/
theorem filteredExpenses_sorted (engine : Engine) (expenses : List Expense)
    (selectedMonth : String) :
    (filteredExpenses engine expenses selectedMonth).Pairwise
      (fun a b => b.date ≤ a.date) ∧
    ∀ d : String,
      (filteredExpenses engine expenses selectedMonth).filter (fun e => e.date = d) =
        match engine with
        | Engine.ltZero =>
          (if selectedMonth = "all" then expenses
           else expenses.filter fun e => formatMonthKey e.date = selectedMonth).filter
            (fun e => e.date = d)
        | Engine.leZero =>
          ((if selectedMonth = "all" then expenses
            else expenses.filter fun e => formatMonthKey e.date = selectedMonth).filter
            (fun e => e.date = d)).reverse := by
  rw [filteredExpenses_eq]
  refine ⟨arraySort_sorted (descending_ordersBy engine Expense.date) _, fun d => ?_⟩
  cases engine with
  | ltZero =>
    exact arraySort_filter (descending_ltZero Expense.date) (k := d) (by simp) _
  | leZero =>
    exact arraySort_filter_front (descending_leZero Expense.date) (k := d) (by simp) _

/-- C8: for every list of records, under either test of the sort, `months`
contains exactly the month keys `formatMonthKey(date)` of the records,
contains no key twice, and is sorted strictly descending. -/
theorem months_spec (engine : Engine) (expenses : List Expense) :
    (∀ k, k ∈ months engine expenses ↔ ∃ e ∈ expenses, formatMonthKey e.date = k) ∧
    (months engine expenses).Nodup ∧
    (months engine expenses).Pairwise (fun a b => b < a) := by
  have hperm := arraySort_perm engine (descending (id : String → String))
    (newSet (expenses.map fun expense => formatMonthKey expense.date))
  have hnd : (months engine expenses).Nodup := hperm.nodup_iff.2 (nodup_newSet _)
  refine ⟨?_, hnd, ?_⟩
  · intro k
    rw [months, hperm.mem_iff, mem_newSet]
    simp
  · have hsorted := arraySort_sorted (descending_ordersBy engine (id : String → String))
      (newSet (expenses.map fun expense => formatMonthKey expense.date))
    have hboth : (months engine expenses).Pairwise (fun a b => b ≤ a ∧ a ≠ b) :=
      List.Pairwise.and hsorted hnd
    exact hboth.imp fun hab => lt_of_le_of_ne hab.1 (Ne.symm hab.2)

/-- C3: for every list of records, with amounts taken as exact rationals,
`totals.average` is 0 for the empty list and otherwise `total` divided by the
number of distinct `date` values, which is the size of `daySet` and is not
zero; two records `a`, `b` on the same date with amounts 10 and 20 give
average 30. -/
theorem totals_average_spec (l : List Expense) (a b : Expense)
    (hdate : a.date = b.date) (ha : a.amount = 10) (hb : b.amount = 20) :
    ((l = [] ∧ (totals id l).average = 0) ∨
      (l ≠ [] ∧ (totalsLoop id l).2.length = (l.map Expense.date).toFinset.card ∧
        (l.map Expense.date).toFinset.card ≠ 0 ∧
        (totals id l).average =
          (totals id l).total / ((l.map Expense.date).toFinset.card : ℚ))) ∧
    (totals id [a, b]).average = 30 := by
  have hsize : ∀ l : List Expense,
      (totalsLoop id l).2.length = (l.map Expense.date).toFinset.card := by
    intro l
    rw [totalsLoop_daySet, length_newSet]
  constructor
  · cases l with
    | nil => exact Or.inl ⟨rfl, rfl⟩
    | cons e es =>
      refine Or.inr ⟨List.cons_ne_nil e es, hsize _, ?_, ?_⟩
      · rw [Ne, Finset.card_eq_zero]
        intro h
        have hmem : e.date ∈ ((e :: es).map Expense.date).toFinset := by simp
        rw [h] at hmem
        exact absurd hmem (Finset.not_mem_empty _)
      · rw [totals_average, hsize]
        rfl
  · rw [totals_average, hsize, totals_total]
    simp [hdate, ha, hb]
    norm_num

theorem totals_average_spec_witness :
    lunch.date = taxi.date ∧ lunch.amount = 10 ∧ taxi.amount = 20 ∧
    (([rent, lunch] = [] ∧ (totals id [rent, lunch]).average = 0) ∨
      ([rent, lunch] ≠ [] ∧
        (totalsLoop id [rent, lunch]).2.length =
          ([rent, lunch].map Expense.date).toFinset.card ∧
        ([rent, lunch].map Expense.date).toFinset.card ≠ 0 ∧
        (totals id [rent, lunch]).average =
          (totals id [rent, lunch]).total /
            (([rent, lunch].map Expense.date).toFinset.card : ℚ))) ∧
    (totals id [lunch, taxi]).average = 30 :=
  ⟨rfl, rfl, rfl, totals_average_spec [rent, lunch] lunch taxi rfl rfl rfl⟩

/-- C4: for every list of records with categories in the fixed set, under
either test of the sort and for every rounding of the sums, the empty list
gives no top category, and a non-empty list gives the entry `top` of a record
`r` such that `top` carries the subtotal that the loop of `totals` has summed
for its category, no category has a larger subtotal, and every record
iterated before `r` has a category with a strictly smaller subtotal; with
exact sums the subtotal of a category is the sum of its amounts. -/
theorem topCategory_spec (engine : Engine) (rounding : ℚ → ℚ) (l : List Expense)
    (hcat : ∀ e ∈ l, e.category ∈ categories) :
    ((l = [] ∧ topCategory engine (totals rounding l) = none) ∨
    (l ≠ [] ∧ ∃ top front r back,
      topCategory engine (totals rounding l) = some top ∧
      l = front ++ r :: back ∧ r.category = top.1 ∧ top.1 ∈ categories ∧
      top.2 = subtotalWhere rounding Expense.category l top.1 ∧
      (∀ e ∈ l, subtotalWhere rounding Expense.category l e.category ≤ top.2) ∧
      (∀ e ∈ front, subtotalWhere rounding Expense.category l e.category < top.2))) ∧
    ∀ c, subtotalWhere id Expense.category l c = amountWhere Expense.category l c := by
  refine ⟨?_, fun c => subtotalWhere_id Expense.category l c⟩
  cases l with
  | nil => exact Or.inl ⟨rfl, rfl⟩
  | cons e es =>
    refine Or.inr ⟨List.cons_ne_nil e es, ?_⟩
    have hkeys := accumulate_nil_keys rounding Expense.category (e :: es)
    have hne : accumulate rounding Expense.category [] (e :: es) ≠ [] := by
      intro h
      have hmem : e.category ∈ newSet ((e :: es).map Expense.category) :=
        (mem_newSet _ _).2 (by simp)
      rw [← hkeys, h] at hmem
      simp at hmem
    obtain ⟨top, dfront, dback, hhead, hsplit, hmax, hfront⟩ :=
      arraySort_head (difference_goesBefore engine) hne
    have hentry : ∀ p ∈ accumulate rounding Expense.category [] (e :: es),
        p.2 = subtotalWhere rounding Expense.category (e :: es) p.1 := fun p hp =>
      (accumulate_entry rounding Expense.category (e :: es) (k := p.1) (v := p.2) hp).2
    have hfind : ∀ x ∈ e :: es, ∃ p ∈ accumulate rounding Expense.category [] (e :: es),
        p.1 = x.category := by
      intro x hx
      have hmem : x.category ∈
          (accumulate rounding Expense.category [] (e :: es)).map Prod.fst := by
        rw [hkeys, mem_newSet]
        exact List.mem_map.2 ⟨x, hx, rfl⟩
      obtain ⟨p, hp, hpk⟩ := List.mem_map.1 hmem
      exact ⟨p, hp, hpk⟩
    have hsplitKeys : newSet ((e :: es).map Expense.category) =
        dfront.map Prod.fst ++ top.1 :: dback.map Prod.fst := by
      rw [← hkeys, hsplit]
      simp
    obtain ⟨c₁, c₂, hcs, hbefore⟩ := newSet_split hsplitKeys
    obtain ⟨front, rest, hl, hfrontmap, hrest⟩ := List.map_eq_append_iff.1 hcs
    obtain ⟨r, back, hrest', hr, -⟩ := List.map_eq_cons_iff.1 hrest
    have htopmem : top ∈ accumulate rounding Expense.category [] (e :: es) := by
      rw [hsplit]
      simp
    refine ⟨top, front, r, back, ?_, ?_, hr, ?_, hentry top htopmem, ?_, ?_⟩
    · have hlen : (totals rounding (e :: es)).byCategory.length ≠ 0 := by
        rw [totals_byCategory]
        exact fun h => hne (List.length_eq_zero.1 h)
      unfold topCategory
      rw [if_neg hlen, totals_byCategory]
      exact hhead
    · rw [hl, hrest']
    · rw [← hr]
      exact hcat r (by rw [hl, hrest']; simp)
    · intro x hx
      obtain ⟨p, hp, hpk⟩ := hfind x hx
      rw [← hpk, ← hentry p hp]
      exact hmax p hp
    · intro x hx
      have hxc : x.category ∈ dfront.map Prod.fst :=
        hbefore _ (by rw [← hfrontmap]; exact List.mem_map.2 ⟨x, hx, rfl⟩)
      obtain ⟨p, hp, hpk⟩ := List.mem_map.1 hxc
      have hpmem : p ∈ accumulate rounding Expense.category [] (e :: es) := by
        rw [hsplit]
        simp [hp]
      rw [← hpk, ← hentry p hpmem]
      exact hfront p hp

theorem topCategory_spec_witness :
    (∀ e ∈ [lunch, taxi, rent], e.category ∈ categories) ∧
    (((([lunch, taxi, rent] : List Expense) = [] ∧
        topCategory Engine.leZero (totals binary64 [lunch, taxi, rent]) = none) ∨
    (([lunch, taxi, rent] : List Expense) ≠ [] ∧ ∃ top front r back,
      topCategory Engine.leZero (totals binary64 [lunch, taxi, rent]) = some top ∧
      [lunch, taxi, rent] = front ++ r :: back ∧ r.category = top.1 ∧
      top.1 ∈ categories ∧
      top.2 = subtotalWhere binary64 Expense.category [lunch, taxi, rent] top.1 ∧
      (∀ e ∈ [lunch, taxi, rent],
        subtotalWhere binary64 Expense.category [lunch, taxi, rent] e.category ≤ top.2) ∧
      (∀ e ∈ front,
        subtotalWhere binary64 Expense.category [lunch, taxi, rent] e.category <
          top.2))) ∧
    ∀ c, subtotalWhere id Expense.category [lunch, taxi, rent] c =
      amountWhere Expense.category [lunch, taxi, rent] c) :=
  ⟨by decide, topCategory_spec Engine.leZero binary64 [lunch, taxi, rent] (by decide)⟩

theorem monthlyTrend_eq (engine : Engine) (rounding : ℚ → ℚ) (expenses : List Expense) :
    monthlyTrend engine rounding expenses =
      (arraySort engine (descending Prod.fst)
        (accumulate rounding monthKey [] expenses)).take 4 := rfl

/-- C6: for every list of records, with amounts taken as exact rationals and
under either test of the sort, `monthlyTrend` has at most 4 entries, the
month keys of its entries are strictly descending and pairwise distinct,
their number is the minimum of 4 and the number of distinct month keys,
every entry pairs a month key of the list with the sum of `amount` over all
records of that month, every month key of the list that is left out is older
than every key returned, and the result is the same for the array `expenses`
as `filteredExpenses` leaves it under any selected month. -/
theorem monthlyTrend_spec (engine : Engine) (expenses : List Expense) :
    (monthlyTrend engine id expenses).length ≤ 4 ∧
    ((monthlyTrend engine id expenses).map Prod.fst).Pairwise (fun a b => b < a) ∧
    ((monthlyTrend engine id expenses).map Prod.fst).Nodup ∧
    (monthlyTrend engine id expenses).length =
      min 4 (expenses.map fun e => formatMonthKey e.date).toFinset.card ∧
    (∀ entry ∈ monthlyTrend engine id expenses,
      (∃ e ∈ expenses, formatMonthKey e.date = entry.1) ∧
      entry.2 = ((expenses.filter fun e => formatMonthKey e.date = entry.1).map
        Expense.amount).sum) ∧
    (∀ e ∈ expenses,
      formatMonthKey e.date ∉ (monthlyTrend engine id expenses).map Prod.fst →
      ∀ entry ∈ monthlyTrend engine id expenses, formatMonthKey e.date < entry.1) ∧
    (∀ selectedMonth : String,
      monthlyTrend engine id (filteredExpensesRun engine expenses selectedMonth).1 =
        monthlyTrend engine id expenses) := by
  have hperm := arraySort_perm engine (descending (Prod.fst : String × ℚ → String))
    (accumulate id monthKey [] expenses)
  have hsorted := arraySort_sorted
    (descending_ordersBy engine (Prod.fst : String × ℚ → String))
    (accumulate id monthKey [] expenses)
  have hkeys := accumulate_nil_keys id monthKey expenses
  have hnd : ((arraySort engine (descending Prod.fst)
      (accumulate id monthKey [] expenses)).map Prod.fst).Nodup := by
    rw [(hperm.map Prod.fst).nodup_iff, hkeys]
    exact nodup_newSet _
  have hstrict : ((arraySort engine (descending Prod.fst)
      (accumulate id monthKey [] expenses)).map Prod.fst).Pairwise (fun a b => b < a) := by
    have hboth : ((arraySort engine (descending Prod.fst)
        (accumulate id monthKey [] expenses)).map Prod.fst).Pairwise
        (fun a b => b ≤ a ∧ a ≠ b) :=
      List.Pairwise.and (List.pairwise_map.2 hsorted) hnd
    exact hboth.imp fun hab => lt_of_le_of_ne hab.1 (Ne.symm hab.2)
  have hlen : (arraySort engine (descending Prod.fst)
      (accumulate id monthKey [] expenses)).length =
      (expenses.map fun e => formatMonthKey e.date).toFinset.card := by
    rw [hperm.length_eq, ← List.length_map (accumulate id monthKey [] expenses) Prod.fst,
      hkeys, length_newSet]
    rfl
  have hsub : ∀ entry ∈ monthlyTrend engine id expenses,
      entry ∈ accumulate id monthKey [] expenses :=
    fun entry h => hperm.subset (List.mem_of_mem_take h)
  refine ⟨?_, ?_, ?_, ?_, ?_, ?_,
    fun selectedMonth => by rw [filteredExpensesRun_fst]⟩
  · rw [monthlyTrend_eq, List.length_take]
    exact min_le_left _ _
  · rw [monthlyTrend_eq, List.map_take]
    exact hstrict.sublist (List.take_sublist _ _)
  · rw [monthlyTrend_eq, List.map_take]
    exact hnd.sublist (List.take_sublist _ _)
  · rw [monthlyTrend_eq, List.length_take, hlen]
  · intro entry h
    obtain ⟨hk, hv⟩ := accumulate_entry id monthKey expenses (k := entry.1) (v := entry.2)
      (hsub entry h)
    rw [subtotalWhere_id] at hv
    refine ⟨?_, hv⟩
    obtain ⟨e, he, hek⟩ := List.mem_map.1 hk
    exact ⟨e, he, hek⟩
  · intro e he hnot entry hentry
    have hmemKeys : formatMonthKey e.date ∈
        (arraySort engine (descending Prod.fst)
          (accumulate id monthKey [] expenses)).map Prod.fst := by
      rw [(hperm.map Prod.fst).mem_iff, hkeys, mem_newSet]
      exact List.mem_map.2 ⟨e, he, rfl⟩
    rw [← List.take_append_drop 4
      (arraySort engine (descending Prod.fst) (accumulate id monthKey [] expenses)),
      List.map_append, List.mem_append] at hmemKeys
    rw [← List.take_append_drop 4
      (arraySort engine (descending Prod.fst) (accumulate id monthKey [] expenses)),
      List.map_append, List.pairwise_append] at hstrict
    rcases hmemKeys with hin | hout
    · exact absurd hin hnot
    · exact hstrict.2.2 entry.1 (List.mem_map.2 ⟨entry, hentry, rfl⟩) _ hout

theorem binary64_ofNat_small :
    binary64 1 = 1 ∧ binary64 2 = 2 ∧ binary64 10 = 10 ∧ binary64 20 = 20 ∧
    binary64 100 = 100 ∧ binary64 200 = 200 := by
  refine ⟨?_, ?_, ?_, ?_, ?_, ?_⟩
  · simpa using binary64_intCast 1 (by norm_num)
  · simpa using binary64_intCast 2 (by norm_num)
  · simpa using binary64_intCast 10 (by norm_num)
  · simpa using binary64_intCast 20 (by norm_num)
  · simpa using binary64_intCast 100 (by norm_num)
  · simpa using binary64_intCast 200 (by norm_num)

/-- C5, as stated, fails on the records `lunch` (10 in 2024-04) and `rent`
(20 in 2024-03), in binary64 arithmetic and under either test of the sort:
the trend is `[("2024-04", 10), ("2024-03", 20)]` and the percentages are 100
and 200, so the entry with the largest amount does not get 100 and not every
percentage is at most 100. -/
theorem trendPercentages_exceeds_100 :
    monthlyTrend Engine.ltZero binary64 [lunch, rent] =
      [("2024-04", 10), ("2024-03", 20)] ∧
    monthlyTrend Engine.leZero binary64 [lunch, rent] =
      [("2024-04", 10), ("2024-03", 20)] ∧
    trendPercentages binary64 [("2024-04", 10), ("2024-03", 20)] = [100, 200] ∧
    ¬ ∀ p ∈ trendPercentages binary64 (monthlyTrend Engine.ltZero binary64 [lunch, rent]),
      p ≤ 100 := by
  obtain ⟨h1, h2, h10, h20, h100, h200⟩ := binary64_ofNat_small
  have k1 : formatMonthKey "2024-04-06" = "2024-04" := by decide
  have k2 : formatMonthKey "2024-03-01" = "2024-03" := by decide
  have hne : ¬ ("2024-04" : String) = "2024-03" := by decide
  have hlt : ¬ ("2024-04" : String) < "2024-03" := by
    rw [String.lt_iff_toList_lt]
    decide
  have hacc : [lunch, rent].foldl (trendStep binary64) [] =
      [("2024-04", 10), ("2024-03", 20)] := by
    simp only [List.foldl_cons, List.foldl_nil, trendStep, lunch, rent, k1, k2,
      dictGet, dictSet, orZero, if_neg hne, zero_add, h10, h20]
  have hlt' : ("2024-03" : String) < "2024-04" := by
    rw [String.lt_iff_toList_lt]
    decide
  have htrend : ∀ engine, monthlyTrend engine binary64 [lunch, rent] =
      [("2024-04", 10), ("2024-03", 20)] := by
    intro engine
    rw [monthlyTrend, hacc]
    cases engine with
    | ltZero =>
      simp only [arraySort, List.foldl_cons, List.foldl_nil, sortedInsert, goesBefore,
        descending, gt_iff_lt, if_neg hlt]
      norm_num
    | leZero =>
      simp only [arraySort, List.foldl_cons, List.foldl_nil, sortedInsert, goesBefore,
        descending, gt_iff_lt, if_pos hlt']
      norm_num
  have hpercent : trendPercentages binary64 [("2024-04", 10), ("2024-03", 20)] =
      [100, 200] := by
    have hq1 : (10 : ℚ) / 10 = 1 := by norm_num
    have hq2 : (20 : ℚ) / 10 = 2 := by norm_num
    have hp1 : (1 : ℚ) * 100 = 100 := by norm_num
    have hp2 : (2 : ℚ) * 100 = 200 := by norm_num
    simp only [trendPercentages, List.map_cons, List.map_nil, hq1, hq2, h1, h2, hp1, hp2,
      h100, h200, mathRound]
    norm_num
  refine ⟨htrend _, htrend _, hpercent, ?_⟩
  rw [htrend, hpercent]
  intro h
  exact absurd (h 200 (by simp)) (by decide)

/-- C5, amended: for every list of records, under either test of the sort and
for every rounding of the arithmetic that leaves 1 and 100 as they are and
keeps the order (binary64 does), either the trend is empty and no percentage
is computed, or each percentage is `Math.round((amount / first) * 100)` for
`first` the amount of the first returned entry, whose month is the most
recent one of the list; then every percentage is 0 if `first` is 0, and
otherwise the first entry has percentage exactly 100, and when `first` is
positive no entry whose amount is at most `first` exceeds 100. -/
theorem trendPercentages_spec (engine : Engine) (rounding : ℚ → ℚ)
    (expenses : List Expense) (hone : rounding 1 = 1) (hhundred : rounding 100 = 100)
    (hmono : ∀ x y, x ≤ y → rounding x ≤ rounding y) :
    (monthlyTrend engine rounding expenses = [] ∧
      trendPercentages rounding (monthlyTrend engine rounding expenses) = []) ∨
    ∃ first rest, monthlyTrend engine rounding expenses = first :: rest ∧
      (∀ e ∈ expenses, formatMonthKey e.date ≤ first.1) ∧
      trendPercentages rounding (monthlyTrend engine rounding expenses) =
        (first :: rest).map (fun entry =>
          if first.2 = 0 then 0
          else mathRound (rounding (rounding (entry.2 / first.2) * 100))) ∧
      ((first.2 = 0 ∧
          ∀ p ∈ trendPercentages rounding (monthlyTrend engine rounding expenses), p = 0) ∨
        (first.2 ≠ 0 ∧
          (trendPercentages rounding (monthlyTrend engine rounding expenses)).head? =
            some 100 ∧
          (0 < first.2 → ∀ entry ∈ monthlyTrend engine rounding expenses,
            entry.2 ≤ first.2 →
            mathRound (rounding (rounding (entry.2 / first.2) * 100)) ≤ 100))) := by
  have hperm := arraySort_perm engine (descending (Prod.fst : String × ℚ → String))
    (accumulate rounding monthKey [] expenses)
  have hsorted := arraySort_sorted
    (descending_ordersBy engine (Prod.fst : String × ℚ → String))
    (accumulate rounding monthKey [] expenses)
  have hkeys := accumulate_nil_keys rounding monthKey expenses
  rw [monthlyTrend_eq]
  cases hs : arraySort engine (descending Prod.fst)
      (accumulate rounding monthKey [] expenses) with
  | nil => exact Or.inl ⟨rfl, rfl⟩
  | cons first tail =>
    rw [hs] at hperm hsorted
    refine Or.inr ⟨first, tail.take 3, rfl, ?_, rfl, ?_⟩
    · intro e he
      have hmem : formatMonthKey e.date ∈ (first :: tail).map Prod.fst := by
        rw [(hperm.map Prod.fst).mem_iff, hkeys, mem_newSet]
        exact List.mem_map.2 ⟨e, he, rfl⟩
      obtain ⟨entry, hentry, hk⟩ := List.mem_map.1 hmem
      rw [← hk]
      rcases List.mem_cons.1 hentry with rfl | htail
      · exact le_rfl
      · exact (List.pairwise_cons.1 hsorted).1 entry htail
    · by_cases h0 : first.2 = 0
      · refine Or.inl ⟨h0, ?_⟩
        intro p hp
        simp only [List.take_succ_cons, trendPercentages, if_pos h0] at hp
        obtain ⟨entry, -, rfl⟩ := List.mem_map.1 hp
        rfl
      · refine Or.inr ⟨h0, ?_, ?_⟩
        · simp only [List.take_succ_cons, trendPercentages, if_neg h0, List.map_cons,
            List.head?_cons, mathRound]
          rw [div_self h0, hone, one_mul, hhundred]
          norm_num
        · intro hpos entry _ hle
          have hq : rounding (entry.2 / first.2) ≤ 1 := by
            have := hmono _ _ ((div_le_one hpos).2 hle)
            rwa [hone] at this
          have hx : rounding (rounding (entry.2 / first.2) * 100) ≤ 100 := by
            have := hmono (rounding (entry.2 / first.2) * 100) 100 (by linarith)
            rwa [hhundred] at this
          have hlt : mathRound (rounding (rounding (entry.2 / first.2) * 100)) < 101 := by
            unfold mathRound
            rw [Int.floor_lt]
            push_cast
            linarith
          omega

theorem roundHalfEven_eq_of_near {y : ℚ} {m : ℤ} (h1 : (m : ℚ) - 1 / 2 < y)
    (h2 : y < m + 1 / 2) : roundHalfEven y = m := by
  rcases lt_or_le y m with hlt | hle
  · have hfl : ⌊y⌋ = m - 1 := by
      rw [Int.floor_eq_iff]
      push_cast
      constructor <;> linarith
    unfold roundHalfEven
    rw [hfl]
    push_cast
    split_ifs <;> first
      | omega
      | (exfalso; linarith)
  · have hfl : ⌊y⌋ = m := by
      rw [Int.floor_eq_iff]
      constructor <;> linarith
    unfold roundHalfEven
    rw [hfl]
    split_ifs <;> first
      | omega
      | (exfalso; linarith)

theorem roundHalfEven_tie_odd {y : ℚ} {m : ℤ} (h : y = m + 1 / 2) (hodd : m % 2 = 1) :
    roundHalfEven y = m + 1 := by
  have hfl : ⌊y⌋ = m := by
    rw [Int.floor_eq_iff]
    constructor <;> linarith
  unfold roundHalfEven
  rw [hfl]
  split_ifs <;> first
    | omega
    | (exfalso; linarith)

theorem binary64Exponent_eq {x : ℚ} {n : ℤ} (hlo : (2 : ℚ) ^ n ≤ x) (hhi : x < 2 ^ (n + 1))
    (hn : -1022 ≤ n) : binary64Exponent x = n - 52 := by
  have hx : 0 < x := lt_of_lt_of_le (by positivity) hlo
  have h1 : n ≤ Int.log 2 x :=
    (Int.zpow_le_iff_le_log (b := 2) (by norm_num) hx).1 (by exact_mod_cast hlo)
  have h2 : Int.log 2 x < n + 1 :=
    (Int.lt_zpow_iff_log_lt (b := 2) (by norm_num) hx).1 (by exact_mod_cast hhi)
  unfold binary64Exponent
  rw [abs_of_pos hx, max_eq_left (by omega)]
  omega

/-- The binary64 value of `x` in the binade of `2 ^ n`, from the integer `m`
nearest to `x / 2 ^ (n - 52)`. -/
theorem binary64_eq_of_near {x : ℚ} {n m : ℤ} (hlo : (2 : ℚ) ^ n ≤ x)
    (hhi : x < 2 ^ (n + 1)) (hn : -1022 ≤ n) (h1 : (m : ℚ) - 1 / 2 < x / 2 ^ (n - 52))
    (h2 : x / 2 ^ (n - 52) < m + 1 / 2) : binary64 x = m * 2 ^ (n - 52) := by
  unfold binary64
  rw [binary64Exponent_eq hlo hhi hn, roundHalfEven_eq_of_near h1 h2]

theorem binary64_eq_of_tie_odd {x : ℚ} {n m : ℤ} (hlo : (2 : ℚ) ^ n ≤ x)
    (hhi : x < 2 ^ (n + 1)) (hn : -1022 ≤ n) (h : x / 2 ^ (n - 52) = m + 1 / 2)
    (hodd : m % 2 = 1) : binary64 x = (m + 1 : ℤ) * 2 ^ (n - 52) := by
  unfold binary64
  rw [binary64Exponent_eq hlo hhi hn, roundHalfEven_tie_odd h hodd]

/-- In binary64 arithmetic the trend sums 40 and 23 give the percentages 100
and 57, the quotient `23 / 40` being rounded below `0.575`; exact arithmetic
gives 100 and 58. -/
theorem trendPercentages_binary64_example :
    trendPercentages binary64 [("2024-04", 40), ("2024-03", 23)] = [100, 57] ∧
    trendPercentages id [("2024-04", 40), ("2024-03", 23)] = [100, 58] := by
  have h1 : binary64 1 = 1 := binary64_ofNat_small.1
  have h100 : binary64 100 = 100 := binary64_ofNat_small.2.2.2.2.1
  have hq : binary64 (23 / 40) = (5179139571476070 : ℤ) * 2 ^ ((-1 : ℤ) - 52) := by
    apply binary64_eq_of_near <;> norm_num
  have hp : binary64 ((5179139571476070 : ℤ) * 2 ^ ((-1 : ℤ) - 52) * 100) =
      (8092405580431359 : ℤ) * 2 ^ ((5 : ℤ) - 52) := by
    apply binary64_eq_of_near <;> norm_num
  constructor
  · have hq1 : (40 : ℚ) / 40 = 1 := by norm_num
    have hp1 : (1 : ℚ) * 100 = 100 := by norm_num
    simp only [trendPercentages, List.map_cons, List.map_nil, hq1, h1, hp1, h100, hq, hp,
      mathRound]
    norm_num
  · simp only [trendPercentages, List.map_cons, List.map_nil, mathRound, id]
    norm_num

theorem trendPercentages_spec_witness :
    binary64 1 = 1 ∧ binary64 100 = 100 ∧ (∀ x y, x ≤ y → binary64 x ≤ binary64 y) ∧
    ((monthlyTrend Engine.ltZero binary64 [lunch, rent] = [] ∧
      trendPercentages binary64 (monthlyTrend Engine.ltZero binary64 [lunch, rent]) = []) ∨
    ∃ first rest, monthlyTrend Engine.ltZero binary64 [lunch, rent] = first :: rest ∧
      (∀ e ∈ [lunch, rent], formatMonthKey e.date ≤ first.1) ∧
      trendPercentages binary64 (monthlyTrend Engine.ltZero binary64 [lunch, rent]) =
        (first :: rest).map (fun entry =>
          if first.2 = 0 then 0
          else mathRound (binary64 (binary64 (entry.2 / first.2) * 100))) ∧
      ((first.2 = 0 ∧
          ∀ p ∈ trendPercentages binary64
            (monthlyTrend Engine.ltZero binary64 [lunch, rent]), p = 0) ∨
        (first.2 ≠ 0 ∧
          (trendPercentages binary64
            (monthlyTrend Engine.ltZero binary64 [lunch, rent])).head? = some 100 ∧
          (0 < first.2 → ∀ entry ∈ monthlyTrend Engine.ltZero binary64 [lunch, rent],
            entry.2 ≤ first.2 →
            mathRound (binary64 (binary64 (entry.2 / first.2) * 100)) ≤ 100)))) :=
  ⟨binary64_ofNat_small.1, binary64_ofNat_small.2.2.2.2.1, fun _ _ h => binary64_mono h,
    trendPercentages_spec Engine.ltZero binary64 [lunch, rent] binary64_ofNat_small.1
      binary64_ofNat_small.2.2.2.2.1 (fun _ _ h => binary64_mono h)⟩

/-- In binary64 arithmetic the records Transport 0.30, Food 0.10, Food 0.20
give the top category Food under either test of the sort: the sum
`0.1 + 0.2` is rounded up to the binary64 value next above `0.3`. -/
theorem topCategory_binary64_example :
    topCategory Engine.ltZero (totals binary64 [busPass, gum, mint]) =
      some ("Food", 5404319552844596 / 2 ^ 54) ∧
    topCategory Engine.leZero (totals binary64 [busPass, gum, mint]) =
      some ("Food", 5404319552844596 / 2 ^ 54) := by
  have h3 : binary64 (3 / 10) = (5404319552844595 : ℤ) * 2 ^ ((-2 : ℤ) - 52) := by
    apply binary64_eq_of_near <;> norm_num
  have h1 : binary64 (1 / 10) = (7205759403792794 : ℤ) * 2 ^ ((-4 : ℤ) - 52) := by
    apply binary64_eq_of_near <;> norm_num
  have h2 : binary64 (2 / 10) = (7205759403792794 : ℤ) * 2 ^ ((-3 : ℤ) - 52) := by
    apply binary64_eq_of_near <;> norm_num
  have h3' : binary64 ((5404319552844595 : ℤ) * 2 ^ ((-2 : ℤ) - 52)) =
      (5404319552844595 : ℤ) * 2 ^ ((-2 : ℤ) - 52) := by
    apply binary64_eq_of_near <;> norm_num
  have h1' : binary64 ((7205759403792794 : ℤ) * 2 ^ ((-4 : ℤ) - 52)) =
      (7205759403792794 : ℤ) * 2 ^ ((-4 : ℤ) - 52) := by
    apply binary64_eq_of_near <;> norm_num
  have hsum : binary64 ((7205759403792794 : ℤ) * 2 ^ ((-4 : ℤ) - 52) +
      (7205759403792794 : ℤ) * 2 ^ ((-3 : ℤ) - 52)) =
      ((5404319552844595 + 1 : ℤ) : ℚ) * 2 ^ ((-2 : ℤ) - 52) := by
    apply binary64_eq_of_tie_odd <;> norm_num
  have hne : ¬ ("Transport" : String) = "Food" := by decide
  have hacc : accumulate binary64 Expense.category [] [busPass, gum, mint] =
      [("Transport", 5404319552844595 / 2 ^ 54), ("Food", 5404319552844596 / 2 ^ 54)] := by
    have hz : ¬ ((7205759403792794 : ℤ) : ℚ) * 2 ^ ((-4 : ℤ) - 52) = 0 := by norm_num
    simp only [accumulate, List.foldl_cons, List.foldl_nil, busPass, gum, mint, dictGet,
      dictSet, orZero, zero_add, h3, h1, h2, h3', h1', if_neg hne, if_true, if_neg hz, hsum]
    norm_num
  have hlen : (totals binary64 [busPass, gum, mint]).byCategory.length ≠ 0 := by
    rw [totals_byCategory, hacc]
    decide
  constructor
  · unfold topCategory
    rw [if_neg hlen, totals_byCategory, hacc]
    simp only [arraySort, List.foldl_cons, List.foldl_nil, sortedInsert, goesBefore]
    norm_num
  · unfold topCategory
    rw [if_neg hlen, totals_byCategory, hacc]
    simp only [arraySort, List.foldl_cons, List.foldl_nil, sortedInsert, goesBefore]
    norm_num

/-- C9: for every store and every candidate, `handleSubmit` either rejects
the candidate (its trimmed description is empty, or its amount does not parse
to a number, or the parsed amount is at most 0) and returns the expense list
as it was, or it accepts the candidate and returns the list with exactly one
new record in front of the unchanged existing records. -/
theorem handleSubmit_spec (parseFloat : String → Option ℚ) (uuid : String)
    (expenses : List Expense) (newExpense : NewExpense) :
    ((trim newExpense.description = "" ∨ parseFloat newExpense.amount = none ∨
        ∃ amount, parseFloat newExpense.amount = some amount ∧ amount ≤ 0) ∧
      (handleSubmit parseFloat uuid (expenses, newExpense)).1 = expenses) ∨
    (¬ (trim newExpense.description = "" ∨ parseFloat newExpense.amount = none ∨
        ∃ amount, parseFloat newExpense.amount = some amount ∧ amount ≤ 0) ∧
      ∃ expense : Expense,
        (handleSubmit parseFloat uuid (expenses, newExpense)).1 = expense :: expenses ∧
        (handleSubmit parseFloat uuid (expenses, newExpense)).1.length =
          expenses.length + 1 ∧
        expense.id = uuid ∧ expense.description = trim newExpense.description ∧
        expense.category = newExpense.category ∧ expense.date = newExpense.date ∧
        expense.note = trim newExpense.note ∧
        ∃ amount, parseFloat newExpense.amount = some amount ∧
          expense.amount = (mathRound (amount * 100) : ℚ) / 100) := by
  cases hparse : parseFloat newExpense.amount with
  | none =>
    refine Or.inl ⟨Or.inr (Or.inl rfl), ?_⟩
    simp only [handleSubmit, hparse]
  | some amount =>
    by_cases hcond : trim newExpense.description = "" ∨ amount ≤ 0
    · left
      refine ⟨?_, ?_⟩
      · rcases hcond with h | h
        · exact Or.inl h
        · exact Or.inr (Or.inr ⟨amount, rfl, h⟩)
      · simp only [handleSubmit, hparse, if_pos hcond]
    · right
      refine ⟨?_, ?_⟩
      · rintro (h | h | ⟨a, ha, hle⟩)
        · exact hcond (Or.inl h)
        · cases h
        · cases ha
          exact hcond (Or.inr hle)
      · simp only [handleSubmit, hparse, if_neg hcond]
        exact ⟨_, rfl, rfl, rfl, rfl, rfl, rfl, rfl, amount, rfl, rfl⟩

/-- C10: submitting the form `gumForm`, whose amount text is `0.004`, on the
seed list is accepted and puts a record with amount 0 in front of the list:
the check `amount <= 0` runs before the rounding to cents. -/
theorem handleSubmit_stores_zero_amount (uuid : Nat → String) (id : String) :
    parseFloatDecimal gumForm.amount = some (1 / 250) ∧
    (handleSubmit parseFloatDecimal id (seedExpenses uuid, gumForm)).1 =
      { id := id, description := "Gum", category := "Food", amount := 0,
        date := "2024-04-09", note := "" } :: seedExpenses uuid := by
  have hparse : parseFloatDecimal gumForm.amount = some (1 / 250) := by
    simp [parseFloatDecimal, gumForm, isWhiteSpace, readDecimal, readDigits, digitValue,
      readExponent]
    norm_num
  have hdesc : trim gumForm.description = "Gum" := by decide
  have hnote : trim gumForm.note = "" := by decide
  have hround : mathRound ((1 / 250 : ℚ) * 100) = 0 := by
    simp only [mathRound]
    norm_num
  have hcond : ¬ (("Gum" : String) = "" ∨ (1 / 250 : ℚ) ≤ 0) := by
    rintro (h | h)
    · exact absurd h (by decide)
    · norm_num at h
  refine ⟨hparse, ?_⟩
  simp only [handleSubmit, hparse, hdesc, hnote, if_neg hcond, hround]
  simp [gumForm]

end ExpenseTracker
